import Mathlib

/-!
Shallow embedding of `numba/typing/templates.py`: the typing-template and
overload-resolution core.  Types are modelled by the inductive `Ty`
(reflecting the external `types` module interface the file consumes),
signatures by `Signature`, the conversion rating by `Rating`, and the shared
resolver `FunctionTemplate._resolve_overload` by `resolveOverload`.
Python's `sorted` (a stable ascending sort by key) is modelled by Mathlib's
stable `List.insertionSort` with the key comparison `tupleLe`, which embeds
Python's lexicographic comparison of integer triples.
-/

namespace NumbaTyping

/-- Array memory layout: row-major C, column-major F, or arbitrary A. -/
inductive Layout where
  | C | F | A
deriving DecidableEq, Hashable

/-- The type universe consumed by the templates: scalar constants of the
external `types` module, plus the composite forms `UniTuple`, `Array` and
`Method` that the templates construct. -/
inductive Ty where
  | int8 | int16 | int32 | int64
  | uint8 | uint16 | uint32 | uint64
  | float32 | float64 | complex64 | complex128
  | boolean | noneType | intp
  | slice2 | slice3
  | rangeState32 | rangeState64
  | rangeIter32 | rangeIter64
  | uniTuple (dtype : Ty) (count : Nat)
  | array (dtype : Ty) (ndim : Nat) (layout : Layout)
  | method (template : String) (recvr : Ty)
deriving DecidableEq, Hashable

/-- `Signature.__slots__ = 'return_type', 'args', 'recvr'`. -/
structure Signature where
  return_type : Ty
  args : List Ty
  recvr : Option Ty
deriving DecidableEq, Hashable

/-- `Signature.__eq__`: compares `args` and `recvr` only, never `return_type`. -/
def Signature.sigEq (s other : Signature) : Bool :=
  decide (s.args = other.args) && decide (s.recvr = other.recvr)

/-- `Signature.__hash__`: `hash(self.args)` — derived from `args` only. -/
def Signature.sigHash (s : Signature) : UInt64 :=
  hash s.args

/-- Insertion into a Python `set` of signatures: a signature equal (per
`Signature.__eq__`) to a member is not added again. -/
def insertSig (pool : List Signature) (s : Signature) : List Signature :=
  if pool.any (fun t => t.sigEq s) then pool else pool ++ [s]

/-- `signature(return_type, *args)` with no receiver. -/
def signature (return_type : Ty) (args : List Ty) : Signature :=
  ⟨return_type, args, none⟩

/-- The verdicts of `context.type_compatibility`; the source's strings
`'exact'`, `'promote'`, `'safe'` and the fourth, information-losing verdict
(spelt `lossy` here, counted by `Rating.lossy_convert`). -/
inductive Compat where
  | exact | promote | safe | lossy
deriving DecidableEq

/-- `Rating`: three counters, all starting at zero.  `lossy_convert` embeds
the source's third slot (the counter for the information-losing conversion
verdict). -/
structure Rating where
  promote : Nat
  safe_convert : Nat
  lossy_convert : Nat
deriving DecidableEq

/-- `Rating()` — all counters zero. -/
def Rating.init : Rating := ⟨0, 0, 0⟩

/-- A rating tuple, worst-counter first, as produced by `Rating.astuple`. -/
abbrev RKey := Nat × Nat × Nat

/-- `Rating.astuple`: `(unsafe_convert, safe_convert, promote)` — the worst
situation comes first. -/
def Rating.astuple (r : Rating) : RKey :=
  (r.lossy_convert, r.safe_convert, r.promote)

/-- The per-argument rating loop of `_resolve_overload`: walk the zipped
actual/formal pairs, bump the matching counter, and abandon the candidate
(`None`) on the incompatible verdict. -/
def rateArgs (oracle : Ty → Ty → Option Compat) :
    List (Ty × Ty) → Rating → Option Rating
  | [], r => some r
  | (actual, formal) :: rest, r =>
    match oracle actual formal with
    | none => none
    | some Compat.promote => rateArgs oracle rest { r with promote := r.promote + 1 }
    | some Compat.safe => rateArgs oracle rest { r with safe_convert := r.safe_convert + 1 }
    | some Compat.lossy => rateArgs oracle rest { r with lossy_convert := r.lossy_convert + 1 }
    | some Compat.exact => rateArgs oracle rest r

/-- The candidate-collection loop of `_resolve_overload`: keep, in case
order, each case whose arity equals the call's and whose every argument pair
is compatible, paired with its rating tuple. -/
def rateCases (oracle : Ty → Ty → Option Compat) (cases : List Signature)
    (args : List Ty) : List (RKey × Signature) :=
  cases.filterMap fun c =>
    if args.length = c.args.length then
      (rateArgs oracle (args.zip c.args) Rating.init).map fun r => (r.astuple, c)
    else none

/-- Python's comparison of two integer triples, as used by `sorted` on the
rating tuples: lexicographic, first component decides unless equal. -/
def tupleLe (a b : RKey) : Bool :=
  if a.1 ≠ b.1 then decide (a.1 < b.1)
  else if a.2.1 ≠ b.2.1 then decide (a.2.1 < b.2.1)
  else decide (a.2.2 ≤ b.2.2)

/-- The sort relation of `sorted(zip(ratings, candids), key=lambda i: i[0])`:
compare only the rating keys. -/
def keyLe (x y : RKey × Signature) : Prop :=
  tupleLe x.1 y.1 = true

instance : DecidableRel keyLe := fun x y => by
  unfold keyLe; infer_instance

/-- Outcome of the shared resolver: the implicit `None` fall-through, a
selected signature, or the raised ambiguity error carrying the key, the
argument types and the renderings of every tied candidate. -/
inductive ResolveResult where
  | noMatch
  | resolved (sig : Signature)
  | ambiguous (key : String) (args : List Ty) (tied : List Signature)
deriving DecidableEq

/-- `FunctionTemplate._resolve_overload`: rate the cases, sort ascending by
rating tuple (stable), raise ambiguity when the two best tie (listing every
candidate rated equal to the best), otherwise return the best; `None` when
nothing survived. -/
def resolveOverload (oracle : Ty → Ty → Option Compat) (key : String)
    (cases : List Signature) (args : List Ty) : ResolveResult :=
  match List.insertionSort keyLe (rateCases oracle cases args) with
  | [] => ResolveResult.noMatch
  | (first, case1) :: rest =>
    match rest with
    | [] => ResolveResult.resolved case1
    | (second, _) :: _ =>
      if first = second then
        ResolveResult.ambiguous key args
          ((((first, case1) :: rest).filter
              (fun p => decide (p.1 = first))).map Prod.snd)
      else ResolveResult.resolved case1

/-- `normalize_index`: `UniTuple(_, n)` becomes `UniTuple(intp, n)`, the two
slice types map to themselves, anything else to `intp`. -/
def normalize_index (index : Ty) : Ty :=
  match index with
  | Ty.uniTuple _ count => Ty.uniTuple Ty.intp count
  | Ty.slice3 => Ty.slice3
  | Ty.slice2 => Ty.slice2
  | _ => Ty.intp

/-- `GetItemArray.generic`: `Except` carries the `raise Exception("unreachable")`
of the final else branch; `.ok none` is the silent non-match `return`. -/
def getItemArrayGeneric (ary idxArg : Ty) : Except String (Option Signature) :=
  match ary with
  | Ty.array dtype ndim layout =>
    let idx := normalize_index idxArg
    if idx = Ty.slice2 ∨ idx = Ty.slice3 then
      Except.ok (some (signature (Ty.array dtype ndim Layout.A)
        [Ty.array dtype ndim layout, idx]))
    else
      match idx with
      | Ty.uniTuple _ k =>
        if ndim > k then Except.ok none
        else if ndim < k then Except.ok none
        else Except.ok (some (signature dtype [Ty.array dtype ndim layout, idx]))
      | _ =>
        if idx = Ty.intp then
          if ndim ≠ 1 then Except.ok none
          else Except.ok (some (signature dtype [Ty.array dtype ndim layout, idx]))
        else Except.error "unreachable"
  | _ => Except.ok none

/-- The case list of the `Range` concrete template, in source order. -/
def Range_cases : List Signature :=
  [signature Ty.rangeState32 [Ty.int32],
   signature Ty.rangeState32 [Ty.int32, Ty.int32, Ty.int32],
   signature Ty.rangeState64 [Ty.int64],
   signature Ty.rangeState64 [Ty.int64, Ty.int64],
   signature Ty.rangeState64 [Ty.int64, Ty.int64, Ty.int64]]

/-- `ArrayAttribute.resolve_flatten`: `types.Method(Array_flatten, ary)`, the
template identified by its key `"array.flatten"`. -/
def resolve_flatten (ary : Ty) : Ty :=
  Ty.method "array.flatten" ary

/-- `Array_flatten.generic`: no positional arguments; when the receiver's
layout is C, return `signature(this.copy(ndim=1), recvr=this)`. -/
def array_flatten_generic (this : Ty) : Option Signature :=
  match this with
  | Ty.array dtype ndim layout =>
    if layout = Layout.C then
      some ⟨Ty.array dtype 1 layout, [], some (Ty.array dtype ndim layout)⟩
    else none
  | _ => none

/-- `Numpy_binary_ufunc.generic` on `[vx, wy, out]`: all three must be
arrays; the guard `vx.dtype != wy.dtype and vx.dtype != out.dtype` yields no
signature, otherwise `signature(out, vx, wy, out)`. -/
def numpy_binary_ufunc_generic (vx wy out : Ty) : Option Signature :=
  match vx, wy, out with
  | Ty.array dx nx lx, Ty.array dy ny ly, Ty.array dz nz lz =>
    if dx ≠ dy ∧ dx ≠ dz then none
    else some (signature (Ty.array dz nz lz)
      [Ty.array dx nx lx, Ty.array dy ny ly, Ty.array dz nz lz])
  | _, _, _ => none

/-- A minimal concrete stand-in for the external type-compatibility oracle,
used to exercise the resolver on closed inputs: equal types are `exact`,
`int32` widens to `int64` by `promote`, everything else is incompatible. -/
def exactOracle (actual formal : Ty) : Option Compat :=
  if actual = formal then some Compat.exact
  else if actual = Ty.int32 ∧ formal = Ty.int64 then some Compat.promote
  else none

/-- Auxiliary: `tupleLe` is the lexicographic order on rating triples. -/
theorem tupleLe_iff (a b : RKey) :
    tupleLe a b = true ↔
      (a.1 < b.1 ∨ (a.1 = b.1 ∧ (a.2.1 < b.2.1 ∨ (a.2.1 = b.2.1 ∧ a.2.2 ≤ b.2.2)))) := by
  rcases a with ⟨u1, s1, p1⟩
  rcases b with ⟨u2, s2, p2⟩
  simp only [tupleLe]
  split_ifs <;> simp_all

/-- Auxiliary: `tupleLe` is reflexive. -/
theorem tupleLe_refl (a : RKey) : tupleLe a a = true := by
  simp [tupleLe]

/-- Auxiliary: `tupleLe` is total. -/
theorem tupleLe_total (a b : RKey) : tupleLe a b = true ∨ tupleLe b a = true := by
  rw [tupleLe_iff, tupleLe_iff]
  omega

/-- Auxiliary: `tupleLe` is transitive. -/
theorem tupleLe_trans {a b c : RKey} (h1 : tupleLe a b = true)
    (h2 : tupleLe b c = true) : tupleLe a c = true := by
  rw [tupleLe_iff] at h1 h2 ⊢
  omega

/-- Auxiliary: `tupleLe` is antisymmetric. -/
theorem tupleLe_antisymm {a b : RKey} (h1 : tupleLe a b = true)
    (h2 : tupleLe b a = true) : a = b := by
  rw [tupleLe_iff] at h1 h2
  rcases a with ⟨u1, s1, p1⟩
  rcases b with ⟨u2, s2, p2⟩
  simp_all only [Prod.mk.injEq]
  omega

instance : IsTotal (RKey × Signature) keyLe :=
  ⟨fun a b => (tupleLe_total a.1 b.1).imp id id⟩

instance : IsTrans (RKey × Signature) keyLe :=
  ⟨fun _ _ _ h1 h2 => tupleLe_trans h1 h2⟩

/-- Auxiliary: the head of the resolver's sorted candidate list carries a
minimal rating key. -/
theorem sort_head_min {l : List (RKey × Signature)} {f : RKey} {c : Signature}
    {rest : List (RKey × Signature)}
    (h : List.insertionSort keyLe l = (f, c) :: rest) :
    ∀ p ∈ l, tupleLe f p.1 = true := by
  intro p hp
  have hmem : p ∈ (f, c) :: rest := by
    rw [← h]
    exact (List.perm_insertionSort keyLe l).mem_iff.mpr hp
  rcases List.mem_cons.mp hmem with heq | hmem
  · rw [heq]
    exact tupleLe_refl _
  · have hs := List.sorted_insertionSort keyLe l
    rw [h] at hs
    exact List.rel_of_sorted_cons hs p hmem

/-- C1: candidate ratings are compared lexicographically on the tuple
`(unsafe, safe, promote)` ascending: strictly fewer information-losing
conversions always ranks first regardless of the other counters, ties break
on the safe counter, and then on the promote counter. -/
theorem rating_rank_priority (A B : Rating) :
    A.astuple = (A.lossy_convert, A.safe_convert, A.promote) ∧
    (A.lossy_convert < B.lossy_convert →
      tupleLe A.astuple B.astuple = true ∧ tupleLe B.astuple A.astuple = false) ∧
    (A.lossy_convert = B.lossy_convert → A.safe_convert < B.safe_convert →
      tupleLe A.astuple B.astuple = true ∧ tupleLe B.astuple A.astuple = false) ∧
    (A.lossy_convert = B.lossy_convert → A.safe_convert = B.safe_convert →
      (tupleLe A.astuple B.astuple = true ↔ A.promote ≤ B.promote)) ∧
    (∀ (oracle : Ty → Ty → Option Compat) (cases : List Signature) (args : List Ty),
      List.Sorted keyLe (List.insertionSort keyLe (rateCases oracle cases args))) := by
  have hAB := tupleLe_iff A.astuple B.astuple
  have hBA := tupleLe_iff B.astuple A.astuple
  simp only [Rating.astuple] at hAB hBA
  refine ⟨rfl, fun h => ?_, fun h h' => ?_, fun h h' => ?_,
    fun oracle cases args => List.sorted_insertionSort keyLe _⟩ <;>
    simp only [Rating.astuple, hAB, hBA, Bool.eq_false_iff, ne_eq] <;>
    omega

/-- Witness for C1: a rating with many safe conversions and promotions but
no information-losing conversion ranks strictly before one with a single
information-losing conversion. -/
theorem rating_rank_priority_witness :
    (Rating.mk 5 7 0).lossy_convert < (Rating.mk 0 0 1).lossy_convert ∧
    (tupleLe (Rating.mk 5 7 0).astuple (Rating.mk 0 0 1).astuple = true ∧
     tupleLe (Rating.mk 0 0 1).astuple (Rating.mk 5 7 0).astuple = false) :=
  ⟨by decide, (rating_rank_priority (Rating.mk 5 7 0) (Rating.mk 0 0 1)).2.1 (by decide)⟩

/-- Auxiliary: the codomain of `normalize_index` is exactly `intp`, the two
slice types, and `UniTuple(intp, n)`. -/
theorem normalize_index_cod (i : Ty) :
    normalize_index i = Ty.intp ∨ normalize_index i = Ty.slice2 ∨
    normalize_index i = Ty.slice3 ∨ ∃ n, normalize_index i = Ty.uniTuple Ty.intp n := by
  cases i <;> simp [normalize_index]

/-- C4: two signatures with identical `args` and `recvr` but different
`return_type` compare equal under `Signature.__eq__`, have the same hash,
and collide in a set (inserting the second into a set holding the first
leaves the set unchanged).  Equality never consults `return_type`. -/
theorem signature_eq_ignores_return (args : List Ty) (recvr : Option Ty) (r1 r2 : Ty)
    (_h : r1 ≠ r2) :
    Signature.sigEq ⟨r1, args, recvr⟩ ⟨r2, args, recvr⟩ = true ∧
    Signature.sigHash ⟨r1, args, recvr⟩ = Signature.sigHash ⟨r2, args, recvr⟩ ∧
    insertSig (insertSig [] ⟨r1, args, recvr⟩) ⟨r2, args, recvr⟩ = [⟨r1, args, recvr⟩] := by
  refine ⟨by simp [Signature.sigEq], rfl, ?_⟩
  simp [insertSig, Signature.sigEq]

/-- Witness for C4 at `(int32, ()) ` versus `(int64, ())`. -/
theorem signature_eq_ignores_return_witness :
    Ty.int32 ≠ Ty.int64 ∧
    (Signature.sigEq ⟨Ty.int32, [], none⟩ ⟨Ty.int64, [], none⟩ = true ∧
     Signature.sigHash ⟨Ty.int32, [], none⟩ = Signature.sigHash ⟨Ty.int64, [], none⟩ ∧
     insertSig (insertSig [] ⟨Ty.int32, [], none⟩) ⟨Ty.int64, [], none⟩ =
       [⟨Ty.int32, [], none⟩]) :=
  ⟨by decide, signature_eq_ignores_return [] none Ty.int32 Ty.int64 (by decide)⟩

/-- C5: on a rank-`n` array, a `UniTuple` index of length `k ≠ n` yields no
signature from `GetItemArray.generic`; of length `n` it yields the array's
`dtype` with the index formal normalised to `UniTuple(intp, n)`. -/
theorem getitem_array_unituple_arity (d : Ty) (n : Nat) (l : Layout) (e : Ty) (k : Nat) :
    (k ≠ n → getItemArrayGeneric (Ty.array d n l) (Ty.uniTuple e k) = Except.ok none) ∧
    getItemArrayGeneric (Ty.array d n l) (Ty.uniTuple e n) =
      Except.ok (some ⟨d, [Ty.array d n l, Ty.uniTuple Ty.intp n], none⟩) := by
  constructor
  · intro hk
    simp only [getItemArrayGeneric, normalize_index]
    split_ifs <;> first | rfl | (simp_all <;> omega)
  · simp only [getItemArrayGeneric, normalize_index, signature]
    split_ifs <;> first | rfl | simp_all

/-- Witness for C5 on `Array(float32, 2, C)` with tuple indices of lengths 3
and 2. -/
theorem getitem_array_unituple_arity_witness :
    (3 : Nat) ≠ 2 ∧
    (getItemArrayGeneric (Ty.array Ty.float32 2 Layout.C) (Ty.uniTuple Ty.int64 3)
        = Except.ok none ∧
     getItemArrayGeneric (Ty.array Ty.float32 2 Layout.C) (Ty.uniTuple Ty.int64 2) =
       Except.ok (some ⟨Ty.float32,
         [Ty.array Ty.float32 2 Layout.C, Ty.uniTuple Ty.intp 2], none⟩)) := by
  have h := getitem_array_unituple_arity Ty.float32 2 Layout.C Ty.int64 3
  exact ⟨by decide, h.1 (by decide), h.2⟩

/-- C6: for three arrays, the binary-ufunc generic yields no signature
exactly when `vx.dtype` differs from both `wy.dtype` and `out.dtype`; in
every other case — including `vx.dtype == out.dtype` while `wy.dtype`
differs — it yields `signature(out, vx, wy, out)`. -/
theorem numpy_binary_ufunc_guard (dx dy dz : Ty) (nx ny nz : Nat) (lx ly lz : Layout) :
    (numpy_binary_ufunc_generic (Ty.array dx nx lx) (Ty.array dy ny ly) (Ty.array dz nz lz)
        = none ↔ (dx ≠ dy ∧ dx ≠ dz)) ∧
    (¬(dx ≠ dy ∧ dx ≠ dz) →
      numpy_binary_ufunc_generic (Ty.array dx nx lx) (Ty.array dy ny ly) (Ty.array dz nz lz)
        = some ⟨Ty.array dz nz lz,
            [Ty.array dx nx lx, Ty.array dy ny ly, Ty.array dz nz lz], none⟩) ∧
    (dx = dz →
      numpy_binary_ufunc_generic (Ty.array dx nx lx) (Ty.array dy ny ly) (Ty.array dz nz lz)
        = some ⟨Ty.array dz nz lz,
            [Ty.array dx nx lx, Ty.array dy ny ly, Ty.array dz nz lz], none⟩) := by
  simp only [numpy_binary_ufunc_generic, signature]
  split_ifs with h <;> simp [h]

/-- Witness for C6 at the flagged permissive case
`vx.dtype == out.dtype ≠ wy.dtype` (float32 arrays with one int32). -/
theorem numpy_binary_ufunc_guard_witness :
    ¬(Ty.float32 ≠ Ty.int32 ∧ Ty.float32 ≠ Ty.float32) ∧
    Ty.float32 = Ty.float32 ∧
    numpy_binary_ufunc_generic (Ty.array Ty.float32 1 Layout.C)
        (Ty.array Ty.int32 1 Layout.C) (Ty.array Ty.float32 1 Layout.C)
      = some ⟨Ty.array Ty.float32 1 Layout.C,
          [Ty.array Ty.float32 1 Layout.C, Ty.array Ty.int32 1 Layout.C,
           Ty.array Ty.float32 1 Layout.C], none⟩ := by
  have h := numpy_binary_ufunc_guard Ty.float32 Ty.int32 Ty.float32 1 1 1
    Layout.C Layout.C Layout.C
  exact ⟨by decide, rfl, h.2.2 rfl⟩

/-- C7: the `range_type` case list holds exactly the 32-bit cases of arities
1 and 3 over `int32` and the 64-bit cases of arities 1, 2 and 3 over
`int64`; no two-argument 32-bit case is present. -/
theorem range_cases_catalogue :
    (∀ s : Signature, s ∈ Range_cases ↔
      (s = signature Ty.rangeState32 [Ty.int32] ∨
       s = signature Ty.rangeState32 [Ty.int32, Ty.int32, Ty.int32] ∨
       s = signature Ty.rangeState64 [Ty.int64] ∨
       s = signature Ty.rangeState64 [Ty.int64, Ty.int64] ∨
       s = signature Ty.rangeState64 [Ty.int64, Ty.int64, Ty.int64])) ∧
    Range_cases.filter
      (fun s => decide (s.return_type = Ty.rangeState32 ∧ s.args.length = 2)) = [] := by
  refine ⟨fun s => ?_, by decide⟩
  simp [Range_cases]

/-- C8: `resolve_flatten` wraps the receiving array in a `Method` bound to
it, and the bound `Array_flatten` template with no arguments yields
`Array(dtype, 1, C)` with the receiver in `recvr` exactly when the
receiver's layout is C, and nothing otherwise. -/
theorem array_flatten_contract (d : Ty) (n : Nat) (l : Layout) :
    resolve_flatten (Ty.array d n l) = Ty.method "array.flatten" (Ty.array d n l) ∧
    (array_flatten_generic (Ty.array d n l) =
        some ⟨Ty.array d 1 Layout.C, [], some (Ty.array d n l)⟩ ↔ l = Layout.C) ∧
    (l ≠ Layout.C → array_flatten_generic (Ty.array d n l) = none) := by
  refine ⟨rfl, ?_, ?_⟩ <;> cases l <;> simp [array_flatten_generic]

/-- Witness for C8 on `Array(int32, 3, C)` and `Array(int32, 3, F)`. -/
theorem array_flatten_contract_witness :
    (array_flatten_generic (Ty.array Ty.int32 3 Layout.C) =
        some ⟨Ty.array Ty.int32 1 Layout.C, [], some (Ty.array Ty.int32 3 Layout.C)⟩) ∧
    Layout.F ≠ Layout.C ∧
    array_flatten_generic (Ty.array Ty.int32 3 Layout.F) = none := by
  refine ⟨(array_flatten_contract Ty.int32 3 Layout.C).2.1.mpr rfl, by decide,
    (array_flatten_contract Ty.int32 3 Layout.F).2.2 (by decide)⟩

/-- C9: `normalize_index` is idempotent. -/
theorem normalize_index_idempotent (idx : Ty) :
    normalize_index (normalize_index idx) = normalize_index idx := by
  cases idx <;> rfl

/-- C10: the final `raise Exception("unreachable")` branch of
`GetItemArray.generic` can never execute: on every pair of operand types the
function returns (a signature or nothing) and never produces the error. -/
theorem getitem_array_never_unreachable (ary idxArg : Ty) :
    ∃ r : Option Signature, getItemArrayGeneric ary idxArg = Except.ok r := by
  cases ary <;> try exact ⟨none, rfl⟩
  case array dtype ndim layout =>
    rcases normalize_index_cod idxArg with h | h | h | ⟨n, h⟩ <;>
      simp [getItemArrayGeneric, h] <;> split_ifs <;> simp

/-- Auxiliary: a successful rating means every actual/formal pair was
compatible. -/
theorem rateArgs_some_compat {oracle : Ty → Ty → Option Compat} :
    ∀ {pairs : List (Ty × Ty)} {r r' : Rating},
      rateArgs oracle pairs r = some r' → ∀ p ∈ pairs, oracle p.1 p.2 ≠ none := by
  intro pairs
  induction pairs with
  | nil =>
    intro r r' _ p hp
    simp at hp
  | cons q rest ih =>
    intro r r' h p hp
    rcases q with ⟨actual, formal⟩
    rcases hq : oracle actual formal with _ | v
    · simp [rateArgs, hq] at h
    · rcases List.mem_cons.mp hp with heq | hp
      · rw [heq, hq]
        simp
      · cases v <;> simp only [rateArgs, hq] at h <;> exact ih h p hp

/-- Auxiliary: an incompatible pair anywhere makes the rating loop abandon
the candidate. -/
theorem rateArgs_incompat {oracle : Ty → Ty → Option Compat} :
    ∀ {pairs : List (Ty × Ty)} (r : Rating),
      (∃ p ∈ pairs, oracle p.1 p.2 = none) → rateArgs oracle pairs r = none := by
  intro pairs
  induction pairs with
  | nil =>
    intro r h
    simp at h
  | cons q rest ih =>
    intro r h
    rcases q with ⟨actual, formal⟩
    rcases hq : oracle actual formal with _ | v
    · simp [rateArgs, hq]
    · rcases h with ⟨p, hp, hnone⟩
      rcases List.mem_cons.mp hp with heq | hp
      · rw [heq] at hnone
        rw [hq] at hnone
        cases hnone
      · cases v <;> simp only [rateArgs, hq] <;> exact ih _ ⟨p, hp, hnone⟩

/-- Auxiliary: characterisation of the rated-candidate list. -/
theorem mem_rateCases {oracle : Ty → Ty → Option Compat} {cases : List Signature}
    {args : List Ty} {k : RKey} {c : Signature} :
    (k, c) ∈ rateCases oracle cases args ↔
      c ∈ cases ∧ args.length = c.args.length ∧
      ∃ r : Rating, rateArgs oracle (args.zip c.args) Rating.init = some r ∧
        r.astuple = k := by
  simp only [rateCases, List.mem_filterMap]
  constructor
  · rintro ⟨a, ha, hf⟩
    by_cases hlen : args.length = a.args.length
    · rw [if_pos hlen] at hf
      rcases hr : rateArgs oracle (args.zip a.args) Rating.init with _ | r
      · rw [hr] at hf
        cases hf
      · rw [hr] at hf
        simp only [Option.map_some', Option.some.injEq, Prod.mk.injEq] at hf
        rcases hf with ⟨hk, hc⟩
        subst hc
        exact ⟨ha, hlen, r, hr, hk⟩
    · rw [if_neg hlen] at hf
      cases hf
  · rintro ⟨hc, hlen, r, hr, hk⟩
    refine ⟨c, hc, ?_⟩
    rw [if_pos hlen, hr]
    simp [hk]

/-- Auxiliary: a resolved signature is one of the rated candidates. -/
theorem resolved_mem {oracle : Ty → Ty → Option Compat} {key : String}
    {cases : List Signature} {args : List Ty} {s : Signature}
    (h : resolveOverload oracle key cases args = ResolveResult.resolved s) :
    ∃ k : RKey, (k, s) ∈ rateCases oracle cases args := by
  unfold resolveOverload at h
  rcases hs : List.insertionSort keyLe (rateCases oracle cases args)
    with _ | ⟨⟨f, c⟩, rest⟩
  · rw [hs] at h
    cases h
  · rw [hs] at h
    have hmem : (f, c) ∈ rateCases oracle cases args :=
      (List.perm_insertionSort keyLe _).subset (hs ▸ List.mem_cons_self _ _)
    rcases rest with _ | ⟨⟨s2, c2⟩, rest2⟩
    · simp only [ResolveResult.resolved.injEq] at h
      exact ⟨f, h ▸ hmem⟩
    · dsimp only at h
      by_cases hfs : f = s2
      · rw [if_pos hfs] at h
        cases h
      · rw [if_neg hfs] at h
        simp only [ResolveResult.resolved.injEq] at h
        exact ⟨f, h ▸ hmem⟩

/-- C3: a candidate whose formal arity differs from the call's argument
count contributes no rating; a candidate with any incompatible
actual/formal pair contributes no rating; and any signature the resolver
returns comes from the case list, matches the call's arity, and has no
incompatible pair. -/
theorem resolver_filters (oracle : Ty → Ty → Option Compat) (key : String)
    (cases : List Signature) (args : List Ty) :
    (∀ c ∈ cases, c.args.length ≠ args.length →
        ∀ k : RKey, (k, c) ∉ rateCases oracle cases args) ∧
    (∀ c ∈ cases, (∃ p ∈ args.zip c.args, oracle p.1 p.2 = none) →
        ∀ k : RKey, (k, c) ∉ rateCases oracle cases args) ∧
    (∀ s : Signature, resolveOverload oracle key cases args = ResolveResult.resolved s →
        s ∈ cases ∧ s.args.length = args.length ∧
        ∀ p ∈ args.zip s.args, oracle p.1 p.2 ≠ none) := by
  refine ⟨?_, ?_, ?_⟩
  · intro c _ hlen k hmem
    rcases mem_rateCases.mp hmem with ⟨_, hlen', _⟩
    exact hlen hlen'.symm
  · intro c _ hbad k hmem
    rcases mem_rateCases.mp hmem with ⟨_, _, r, hr, _⟩
    rw [rateArgs_incompat _ hbad] at hr
    cases hr
  · intro s hres
    rcases resolved_mem hres with ⟨k, hmem⟩
    rcases mem_rateCases.mp hmem with ⟨hc, hlen, r, hr, _⟩
    exact ⟨hc, hlen.symm, rateArgs_some_compat hr⟩

/-- Witness for C3: resolving `range_type` cases against a single `int32`
argument; the two-argument 64-bit case is arity-rejected, the one-argument
64-bit case would need `int32` against `int64` (promote, accepted), and a
caller receiving a resolved signature observes both filters passed. -/
theorem resolver_filters_witness :
    signature Ty.rangeState64 [Ty.int64, Ty.int64] ∈ Range_cases ∧
    (signature Ty.rangeState64 [Ty.int64, Ty.int64]).args.length ≠ [Ty.int32].length ∧
    (∀ k : RKey, (k, signature Ty.rangeState64 [Ty.int64, Ty.int64]) ∉
        rateCases exactOracle Range_cases [Ty.int32]) :=
  ⟨by decide, by decide,
   (resolver_filters exactOracle "range" Range_cases [Ty.int32]).1
     (signature Ty.rangeState64 [Ty.int64, Ty.int64]) (by decide) (by decide)⟩

/-- Auxiliary: the resolver's decision once the sorted candidate list is
known to hold at least two entries. -/
theorem resolveOverload_of_sort_pair {oracle : Ty → Ty → Option Compat}
    (key : String) {cases : List Signature} {args : List Ty} {f s2 : RKey}
    {c1 c2 : Signature} {tl2 : List (RKey × Signature)}
    (h : List.insertionSort keyLe (rateCases oracle cases args) =
      (f, c1) :: (s2, c2) :: tl2) :
    resolveOverload oracle key cases args =
      if f = s2 then
        ResolveResult.ambiguous key args
          ((((f, c1) :: (s2, c2) :: tl2).filter
              (fun p => decide (p.1 = f))).map Prod.snd)
      else ResolveResult.resolved c1 := by
  unfold resolveOverload
  rw [h]

/-- Auxiliary: the resolver's decision on a single surviving candidate. -/
theorem resolveOverload_of_sort_single {oracle : Ty → Ty → Option Compat}
    (key : String) {cases : List Signature} {args : List Ty} {f : RKey}
    {c1 : Signature}
    (h : List.insertionSort keyLe (rateCases oracle cases args) = [(f, c1)]) :
    resolveOverload oracle key cases args = ResolveResult.resolved c1 := by
  unfold resolveOverload
  rw [h]

/-- C2: when the minimal rating `m` among the surviving candidates is
attained at least twice, the resolver raises the ambiguity error and the
tied list holds exactly the candidates rated `m`; when `m` is attained
exactly once, the unique best candidate is returned. -/
theorem resolver_ambiguity (oracle : Ty → Ty → Option Compat) (key : String)
    (cases : List Signature) (args : List Ty) (m : RKey)
    (hmem : m ∈ (rateCases oracle cases args).map Prod.fst)
    (hmin : ∀ k ∈ (rateCases oracle cases args).map Prod.fst, tupleLe m k = true) :
    (2 ≤ (rateCases oracle cases args).countP (fun p => decide (p.1 = m)) →
      ∃ tied : List Signature,
        resolveOverload oracle key cases args = ResolveResult.ambiguous key args tied ∧
        ∀ s : Signature, s ∈ tied ↔ (m, s) ∈ rateCases oracle cases args) ∧
    ((rateCases oracle cases args).countP (fun p => decide (p.1 = m)) = 1 →
      ∃ c : Signature,
        resolveOverload oracle key cases args = ResolveResult.resolved c ∧
        (m, c) ∈ rateCases oracle cases args ∧
        ∀ p ∈ rateCases oracle cases args, p.1 = m → p.2 = c) := by
  have hperm := List.perm_insertionSort keyLe (rateCases oracle cases args)
  have hsorted := List.sorted_insertionSort keyLe (rateCases oracle cases args)
  rcases List.mem_map.mp hmem with ⟨pm, hpmS, hpm1⟩
  have hpmL : pm ∈ List.insertionSort keyLe (rateCases oracle cases args) :=
    hperm.mem_iff.mpr hpmS
  rcases hL : List.insertionSort keyLe (rateCases oracle cases args)
    with _ | ⟨⟨f, c1⟩, tl⟩
  · rw [hL] at hpmL
    cases hpmL
  · rw [hL] at hperm hsorted hpmL
    have hfS : (f, c1) ∈ rateCases oracle cases args :=
      hperm.subset (List.mem_cons_self _ _)
    have hfm : m = f := by
      have h1 : tupleLe m f = true := hmin f (List.mem_map.mpr ⟨(f, c1), hfS, rfl⟩)
      rcases List.mem_cons.mp hpmL with heq | hmemtl
      · rw [heq] at hpm1
        exact hpm1.symm
      · have h2 : keyLe (f, c1) pm := List.rel_of_sorted_cons hsorted pm hmemtl
        exact (tupleLe_antisymm (hpm1 ▸ h2) h1).symm
    subst hfm
    have hcnt : List.countP (fun p => decide (p.1 = m)) ((m, c1) :: tl) =
        (rateCases oracle cases args).countP (fun p => decide (p.1 = m)) :=
      hperm.countP_eq _
    rcases tl with _ | ⟨⟨s2, c2⟩, tl2⟩
    · refine ⟨fun h2c => absurd h2c ?_, fun _ => ?_⟩
      · rw [← hcnt]
        simp [List.countP_cons]
      · refine ⟨c1, resolveOverload_of_sort_single key hL, hfS, ?_⟩
        intro p hpS _
        have hpL : p ∈ [(m, c1)] := hperm.mem_iff.mpr hpS
        simp only [List.mem_singleton] at hpL
        rw [hpL]
    · have hms2 : tupleLe m s2 = true :=
        List.rel_of_sorted_cons hsorted (s2, c2) (List.mem_cons_self _ _)
      constructor
      · intro h2c
        rw [← hcnt, List.countP_cons] at h2c
        simp only [decide_True, if_true] at h2c
        have htl : 0 < List.countP (fun p => decide (p.1 = m)) ((s2, c2) :: tl2) := by
          omega
        obtain ⟨q, hqtl, hq1⟩ := List.countP_pos_iff.mp htl
        have hq1' : q.1 = m := of_decide_eq_true hq1
        have hs2m : m = s2 := by
          rcases List.mem_cons.mp hqtl with heq | hq2
          · rw [heq] at hq1'
            exact hq1'.symm
          · have h3 : keyLe (s2, c2) q :=
              List.rel_of_sorted_cons hsorted.of_cons q hq2
            exact tupleLe_antisymm hms2 (hq1' ▸ h3)
        subst hs2m
        have hres := resolveOverload_of_sort_pair key hL
        rw [if_pos rfl] at hres
        refine ⟨_, hres, fun s => ?_⟩
        constructor
        · intro hst
          rcases List.mem_map.mp hst with ⟨p, hpf, hps⟩
          have hp := List.mem_filter.mp hpf
          have hp1 : p.1 = m := of_decide_eq_true hp.2
          have hpe : p = (m, s) := by
            rcases p with ⟨pk, pc⟩
            simp_all
          exact hperm.subset (hpe ▸ hp.1)
        · intro hmsS
          have hmsL : (m, s) ∈ (m, c1) :: (m, c2) :: tl2 := hperm.mem_iff.mpr hmsS
          exact List.mem_map.mpr ⟨(m, s), List.mem_filter.mpr ⟨hmsL, by simp⟩, rfl⟩
      · intro h1c
        rw [← hcnt, List.countP_cons] at h1c
        simp only [decide_True, if_true] at h1c
        have htl0 : List.countP (fun p => decide (p.1 = m)) ((s2, c2) :: tl2) = 0 := by
          omega
        have hs2 : s2 ≠ m := by
          intro he
          have : 0 < List.countP (fun p => decide (p.1 = m)) ((s2, c2) :: tl2) :=
            List.countP_pos_iff.mpr ⟨(s2, c2), List.mem_cons_self _ _, decide_eq_true he⟩
          omega
        have hres := resolveOverload_of_sort_pair key hL
        rw [if_neg (fun he => hs2 he.symm)] at hres
        refine ⟨c1, hres, hfS, ?_⟩
        intro p hpS hp1
        have hpL : p ∈ (m, c1) :: (s2, c2) :: tl2 := hperm.mem_iff.mpr hpS
        rcases List.mem_cons.mp hpL with heq | hp2
        · rw [heq]
        · exfalso
          have : 0 < List.countP (fun p => decide (p.1 = m)) ((s2, c2) :: tl2) :=
            List.countP_pos_iff.mpr ⟨p, hp2, decide_eq_true hp1⟩
          omega

/-- Witness for C2: two registered cases with identical argument patterns
and different return types (scenario S10) tie at rating `(0, 0, 0)` on an
exact call, and resolution reports both as ambiguous. -/
theorem resolver_ambiguity_witness :
    ((0, 0, 0) : RKey) ∈ (rateCases exactOracle
      [signature Ty.int32 [Ty.int32], signature Ty.int64 [Ty.int32]]
      [Ty.int32]).map Prod.fst ∧
    (∀ k ∈ (rateCases exactOracle
        [signature Ty.int32 [Ty.int32], signature Ty.int64 [Ty.int32]]
        [Ty.int32]).map Prod.fst, tupleLe (0, 0, 0) k = true) ∧
    2 ≤ (rateCases exactOracle
      [signature Ty.int32 [Ty.int32], signature Ty.int64 [Ty.int32]]
      [Ty.int32]).countP (fun p => decide (p.1 = ((0, 0, 0) : RKey))) ∧
    ∃ tied : List Signature,
      resolveOverload exactOracle "+" [signature Ty.int32 [Ty.int32],
        signature Ty.int64 [Ty.int32]] [Ty.int32] =
        ResolveResult.ambiguous "+" [Ty.int32] tied ∧
      ∀ s : Signature, s ∈ tied ↔ (((0, 0, 0) : RKey), s) ∈ rateCases exactOracle
        [signature Ty.int32 [Ty.int32], signature Ty.int64 [Ty.int32]] [Ty.int32] :=
  ⟨by decide, by decide, by decide,
   (resolver_ambiguity exactOracle "+"
      [signature Ty.int32 [Ty.int32], signature Ty.int64 [Ty.int32]]
      [Ty.int32] (0, 0, 0) (by decide) (by decide)).1 (by decide)⟩

end NumbaTyping
